import Mathlib

/-!
Verification of the Waveshare 4.2" e-paper driver and its packed-bitmap
rendering engine (`src/src/waveshare/display.rs`).

The panel controller (`Epd`) is embedded as a trace semantics: every driver
operation is the ordered list of observable bus/control events it emits
(hardware reset pulse, busy-wait, command byte, data byte, bulk data payload).
This abstracts the physical pin wiring while retaining the exact
opcode/data sequences.

The frame buffer (`FrameBuffer`) is embedded as a structure holding the packed
byte list; fallible operations (Rust indexing that can panic) return `Option`.
Machine integers are modelled as `Nat`/`Int`; the byte-level bit operations
(`&&&`, `|||`, `^^^`, shifts) coincide with the `u8` operations of the source
on bytes below 256, an invariant maintained by every constructor and
operation.
-/

set_option autoImplicit false

namespace Waveshare

/-- Observable bus/control events emitted by the driver: a hardware reset
pulse, a busy-wait (poll the busy line until deasserted), a command byte
transaction, a single data byte transaction, and a bulk data transaction. -/
inductive Ev where
  | reset : Ev
  | busy : Ev
  | cmd : Nat → Ev
  | data : Nat → Ev
  | dataBulk : List Nat → Ev
deriving DecidableEq, Repr

namespace Epd

/-- Command constant from the source's `commands` module. -/
def DISPLAY_REFRESH : Nat := 0x12

/-- Command constant from the source's `commands` module. -/
def DEEP_SLEEP : Nat := 0x07

/-- Trace of `Epd::send_command`: one command-byte bus transaction. -/
def send_command (command : Nat) : List Ev := [Ev.cmd command]

/-- Trace of `Epd::send_data`: one data-byte bus transaction. -/
def send_data (data : Nat) : List Ev := [Ev.data data]

/-- Trace of `Epd::send_data_bulk`: one bulk data transaction. -/
def send_data_bulk (data : List Nat) : List Ev := [Ev.dataBulk data]

/-- Trace of `Epd::reset`: the hardware reset pulse (high / low / high with
delays) on the reset line, observed as a single reset-pulse event. -/
def reset : List Ev := [Ev.reset]

/-- Trace of `Epd::read_busy`: poll the busy line until it deasserts. -/
def read_busy : List Ev := [Ev.busy]

/-- Trace of `Epd::turn_on_display` (full refresh trigger). -/
def turn_on_display : List Ev :=
  send_command 0x22 ++ send_data 0xF7 ++ send_command 0x20 ++ read_busy

/-- Trace of `Epd::turn_on_display_fast` (fast refresh trigger). -/
def turn_on_display_fast : List Ev :=
  send_command 0x22 ++ send_data 0xC7 ++ send_command 0x20 ++ read_busy

/-- Trace of the source's turn-on-display function for the partial-refresh
mode (mode byte 0xFF). -/
def turn_on_display_part : List Ev :=
  send_command 0x22 ++ send_data 0xFF ++ send_command 0x20 ++ read_busy

/-- Trace of `Epd::turn_on_display_4gray` (four-gray refresh trigger). -/
def turn_on_display_4gray : List Ev :=
  send_command 0x22 ++ send_data 0xCF ++ send_command 0x20 ++ read_busy

/-- Trace of `Epd::init`: reset pulse, busy-wait, software reset, busy-wait,
then the configuration commands, finishing with a busy-wait. -/
def init : List Ev :=
  reset ++ read_busy
  ++ send_command DISPLAY_REFRESH ++ read_busy
  ++ send_command 0x21 ++ send_data 0x40 ++ send_data 0x00
  ++ send_command 0x3C ++ send_data 0x05
  ++ send_command 0x11 ++ send_data 0x03
  ++ send_command 0x44 ++ send_data 0x00 ++ send_data 0x31
  ++ send_command 0x45 ++ send_data 0x00 ++ send_data 0x00
      ++ send_data 0x2B ++ send_data 0x01
  ++ send_command 0x4E ++ send_data 0x00
  ++ send_command 0x4F ++ send_data 0x00 ++ send_data 0x00
  ++ read_busy

/-- Trace of `Epd::display`: write the image to both RAM planes (0x24 and
0x26), then trigger a full refresh. -/
def display (image : List Nat) : List Ev :=
  send_command 0x24 ++ send_data_bulk image
  ++ send_command 0x26 ++ send_data_bulk image
  ++ turn_on_display

/-- Trace of the source's partial display update: restate border-waveform,
update-control-1, window and counter commands, write the image to the primary
RAM plane (0x24) only, then trigger the partial-refresh variant. -/
def display_part (image : List Nat) : List Ev :=
  send_command 0x3C ++ send_data 0x80
  ++ send_command 0x21 ++ send_data 0x00 ++ send_data 0x00
  ++ send_command 0x3C ++ send_data 0x80
  ++ send_command 0x44 ++ send_data 0x00 ++ send_data 0x31
  ++ send_command 0x45 ++ send_data 0x00 ++ send_data 0x00
      ++ send_data 0x2B ++ send_data 0x01
  ++ send_command 0x4E ++ send_data 0x00
  ++ send_command 0x4F ++ send_data 0x00 ++ send_data 0x00
  ++ send_command 0x24 ++ send_data_bulk image
  ++ turn_on_display_part

end Epd

/-- The frame buffer of the source: packed monochrome canvas with a byte
list `buffer` and pixel dimensions `width`, `height`. -/
structure FrameBuffer where
  buffer : List Nat
  width : Nat
  height : Nat
deriving DecidableEq, Repr

namespace FrameBuffer

/-- Model of `FrameBuffer::new`: allocate `width*height/8` bytes, all 0xFF. -/
def new (width height : Nat) : FrameBuffer :=
  { buffer := List.replicate (width * height / 8) 0xFF
    width := width
    height := height }

/-- Model of `FrameBuffer::fill`: set every byte to 0x00 (color 0) or 0xFF. -/
def fill (fb : FrameBuffer) (color : Nat) : FrameBuffer :=
  let fill_byte := if color = 0 then 0x00 else 0xFF
  { fb with buffer := fb.buffer.map (fun _ => fill_byte) }

/-- The byte index computed by `FrameBuffer::pixel`. -/
def pixelIndex (width x y : Nat) : Nat := (x + y * width) / 8

/-- The bit mask computed by `FrameBuffer::pixel`. -/
def pixelMask (x : Nat) : Nat := 0x80 >>> (x % 8)

/-- Model of `FrameBuffer::pixel`. Out-of-range coordinates return the
buffer unchanged (the source's early return). An in-range coordinate whose
computed byte index falls outside the allocated byte list is a Rust
index-out-of-bounds panic, modelled as `none`. -/
def pixel (fb : FrameBuffer) (x y color : Nat) : Option FrameBuffer :=
  if x ≥ fb.width ∨ y ≥ fb.height then some fb
  else
    let idx := pixelIndex fb.width x y
    let bit := pixelMask x
    if idx < fb.buffer.length then
      let old := fb.buffer.getD idx 0
      let b := if color = 0 then old &&& (0xFF ^^^ bit) else old ||| bit
      some { fb with buffer := fb.buffer.set idx b }
    else none

/-- Model of `FrameBuffer::hline`: pixels at `x+i` for `i` in `0..length`. -/
def hline (fb : FrameBuffer) (x y length color : Nat) : Option FrameBuffer :=
  (List.range length).foldlM (fun b i => b.pixel (x + i) y color) fb

/-- Model of `FrameBuffer::vline`: pixels at `y+i` for `i` in `0..length`. -/
def vline (fb : FrameBuffer) (x y length color : Nat) : Option FrameBuffer :=
  (List.range length).foldlM (fun b i => b.pixel x (y + i) color) fb

/-- One iteration of the Bresenham loop body of `FrameBuffer::line` acting on
the state `(x, y, err)`: compute `e2 = 2*err`, step `x` when `e2 ≥ dy` and
`y` when `e2 ≤ dx`, accumulating the error term. -/
def lineStep (dx dy sx sy x y err : Int) : Int × Int × Int :=
  let e2 := 2 * err
  let p1 : Int × Int := if e2 ≥ dy then (x + sx, err + dy) else (x, err)
  let p2 : Int × Int := if e2 ≤ dx then (y + sy, p1.2 + dx) else (y, p1.2)
  (p1.1, p2.1, p2.2)

/-- Fuel-indexed unfolding of the Bresenham loop of `FrameBuffer::line`,
returning the points visited in order. The loop visits the current point,
stops when the endpoint `(xt, yt)` is reached, and otherwise steps via
`lineStep`. The fuel passed by `linePoints` always suffices, and the
theorems below hold for arbitrary fuel. -/
def linePointsAux (dx dy sx sy xt yt : Int) :
    Nat → Int → Int → Int → List (Int × Int)
  | 0, _, _, _ => []
  | fuel + 1, x, y, err =>
    (x, y) ::
      (if x = xt ∧ y = yt then []
       else
         let s := lineStep dx dy sx sy x y err
         linePointsAux dx dy sx sy xt yt fuel s.1 s.2.1 s.2.2)

/-- The points visited by `FrameBuffer::line`'s Bresenham loop, in order,
including both endpoints. -/
def linePoints (x0 y0 x1 y1 : Int) : List (Int × Int) :=
  let dx : Int := |x1 - x0|
  let dy : Int := -|y1 - y0|
  let sx : Int := if x0 < x1 then 1 else -1
  let sy : Int := if y0 < y1 then 1 else -1
  linePointsAux dx dy sx sy x1 y1 ((dx - dy).toNat + 1) x0 y0 (dx + dy)

/-- The points actually plotted by `FrameBuffer::line`: visited points with
both coordinates non-negative (the source's `x >= 0 && y >= 0` guard). -/
def linePlotted (x0 y0 x1 y1 : Int) : List (Int × Int) :=
  (linePoints x0 y0 x1 y1).filter (fun p => 0 ≤ p.1 ∧ 0 ≤ p.2)

/-- Model of `FrameBuffer::line`: plot each visited point with non-negative
coordinates via `pixel`. -/
def line (fb : FrameBuffer) (x0 y0 x1 y1 : Int) (color : Nat) :
    Option FrameBuffer :=
  (linePoints x0 y0 x1 y1).foldlM
    (fun b p =>
      if 0 ≤ p.1 ∧ 0 ≤ p.2 then b.pixel p.1.toNat p.2.toNat color else some b)
    fb

/-- The wrapping decrement-by-one of a `u32` sum, modelling the source's
`y + h - 1` and `x + w - 1` in `FrameBuffer::rect` (u32 arithmetic wraps on
underflow in release builds; for any positive argument below 2^32 this is
ordinary subtraction by one). -/
def u32sub1 (n : Nat) : Nat := (n + 0xFFFFFFFF) % 0x100000000

/-- Model of `FrameBuffer::rect`: outline as two horizontal and two vertical
lines. -/
def rect (fb : FrameBuffer) (x y w h color : Nat) : Option FrameBuffer := do
  let fb ← fb.hline x y w color
  let fb ← fb.hline x (u32sub1 (y + h)) w color
  let fb ← fb.vline x y h color
  fb.vline (u32sub1 (x + w)) y h color

/-- Model of `FrameBuffer::fill_rect`: nested iteration over the box. -/
def fill_rect (fb : FrameBuffer) (x y w h color : Nat) : Option FrameBuffer :=
  (List.range h).foldlM
    (fun b dy =>
      (List.range w).foldlM (fun b2 dx => b2.pixel (x + dx) (y + dy) color) b)
    fb

/-- The positions plotted for one glyph by `FrameBuffer::text`: for every row
byte `bits` (row index from enumeration) and every column `col` in `0..8`,
the position `(cx + col, y + row)` is plotted exactly when
`bits & (1 << col)` is non-zero. -/
def glyphPoints (glyph : List Nat) (cx y : Nat) : List (Nat × Nat) :=
  glyph.enum.flatMap
    (fun rb =>
      (List.range 8).filterMap
        (fun col =>
          if rb.2 &&& (1 <<< col) ≠ 0 then some (cx + col, y + rb.1)
          else none))

/-- The positions plotted by `FrameBuffer::text`: iterate over the character
code points carrying the cursor `cx` (starting at `x`, advanced by 8 after
every character); a code point in `[32, 128)` contributes the points of the
glyph at index `code point - 32`, any other code point contributes nothing.
The glyph table is a parameter: the static `FONT` of the source lives in
`src/waveshare/font.rs`, which is not part of the sources given here. -/
def textPoints (font : List (List Nat)) : List Nat → Nat → Nat →
    List (Nat × Nat)
  | [], _, _ => []
  | ch :: rest, cx, y =>
    (if 32 ≤ ch ∧ ch < 128 then glyphPoints (font.getD (ch - 32) []) cx y
     else [])
      ++ textPoints font rest (cx + 8) y

/-- Model of `FrameBuffer::text`: plot every text point via `pixel`. The
string is the list of character code points, the glyph table a parameter. -/
def text (fb : FrameBuffer) (font : List (List Nat)) (s : List Nat)
    (x y color : Nat) : Option FrameBuffer :=
  (textPoints font s x y).foldlM (fun b p => b.pixel p.1 p.2 color) fb

/-- Model of the accessor `FrameBuffer::buffer`: the raw packed bytes. -/
def bufferRef (fb : FrameBuffer) : List Nat := fb.buffer

end FrameBuffer


/-- Modelled from the spec: the static glyph table `FONT` lives in
`src/waveshare/font.rs`, which is not among the given source files. Spec
section 4.4 fixes only its shape, a static mapping from code points 32 to 127
to arrays of 8 row bytes, authored with bit 7 as the leftmost column of the
glyph image. This model instantiates that shape: 96 glyphs, all blank except
a sample glyph for code point 76 (the letter L, table index 44), drawn with
the most significant bits leftmost as the spec describes (a vertical stroke
near the left edge, bit 6, and a base row 0x7E). -/
def FONT_model : List (List Nat) :=
  (List.replicate 96 (List.replicate 8 0)).set 44
    [0x40, 0x40, 0x40, 0x40, 0x40, 0x40, 0x7E, 0x00]

/-- The drawing operations of the frame buffer, used to state length
preservation over arbitrary operation sequences. -/
inductive FBOp where
  | fill (color : Nat)
  | pixel (x y color : Nat)
  | hline (x y length color : Nat)
  | vline (x y length color : Nat)
  | line (x0 y0 x1 y1 : Int) (color : Nat)
  | rect (x y w h color : Nat)
  | fill_rect (x y w h color : Nat)
  | text (font : List (List Nat)) (s : List Nat) (x y color : Nat)

/-- Apply one drawing operation to a frame buffer. The source's `fill` is
total; it is wrapped in `some` here. -/
def FBOp.apply (fb : FrameBuffer) : FBOp → Option FrameBuffer
  | FBOp.fill c => some (fb.fill c)
  | FBOp.pixel x y c => fb.pixel x y c
  | FBOp.hline x y l c => fb.hline x y l c
  | FBOp.vline x y l c => fb.vline x y l c
  | FBOp.line x0 y0 x1 y1 c => fb.line x0 y0 x1 y1 c
  | FBOp.rect x y w h c => fb.rect x y w h c
  | FBOp.fill_rect x y w h c => fb.fill_rect x y w h c
  | FBOp.text font s x y c => fb.text font s x y c

/-! ## Supporting lemmas -/

/-- The default-valued entry at an in-bounds index is a member of the list. -/
theorem getD_mem_of_lt {l : List Nat} {i : Nat} (h : i < l.length) :
    l.getD i 0 ∈ l := by
  rw [List.getD_eq_getElem?_getD, List.getElem?_eq_getElem h]
  exact List.getElem_mem h

/-- At an in-bounds index the optional lookup returns the default-valued
entry. -/
theorem getElem?_eq_some_getD {l : List Nat} {i : Nat} (h : i < l.length) :
    l[i]? = some (l.getD i 0) := by
  rw [List.getElem?_eq_getElem h, List.getD_eq_getElem?_getD,
    List.getElem?_eq_getElem h]
  rfl

namespace FrameBuffer

/-- A bitwise conjunction with a power of two is non-zero exactly when the
corresponding bit is set. -/
theorem and_two_pow_ne_zero_iff (b k : Nat) :
    b &&& 2 ^ k ≠ 0 ↔ b.testBit k = true := by
  constructor
  · intro h
    by_contra hb
    apply h
    apply Nat.eq_of_testBit_eq
    intro i
    rcases eq_or_ne i k with rfl | hik
    · simp only [Nat.testBit_and, Nat.testBit_two_pow_self, Bool.and_true,
        Nat.zero_testBit]
      exact Bool.not_eq_true _ ▸ hb
    · simp [Nat.testBit_and, Nat.testBit_two_pow_of_ne (Ne.symm hik)]
  · intro h hz
    have := congrArg (fun n => n.testBit k) hz
    simp [Nat.testBit_and, h, Nat.testBit_two_pow_self] at this

/-- The index computed by `pixel` is within the allocated byte list whenever
the coordinates are in range and `8` divides `width*height`. -/
theorem pixelIndex_lt_length {w h x y : Nat} (h8 : 8 ∣ w * h)
    (hx : x < w) (hy : y < h) :
    pixelIndex w x y < (new w h).buffer.length := by
  have hlen : (new w h).buffer.length = w * h / 8 := by
    simp [new]
  rw [hlen]
  apply Nat.div_lt_div_of_lt_of_dvd h8
  have h1 : (y + 1) * w ≤ h * w := Nat.mul_le_mul_right w hy
  have h2 : (y + 1) * w = y * w + w := Nat.succ_mul y w
  have h3 : w * h = h * w := Nat.mul_comm w h
  omega

end FrameBuffer

/-! ## Claim theorems -/

/-- C2: the trace of `init()` is exactly: hardware reset pulse, busy-wait,
software-reset opcode (0x12), busy-wait, update-control-1 opcode (0x21) with
two data bytes, border-waveform opcode (0x3C) with one data byte,
data-entry-mode opcode (0x11) with one data byte, RAM X window start/end
opcode (0x44) with two data bytes, RAM Y window start/end opcode (0x45) with
four data bytes, RAM X counter opcode (0x4E) with one data byte, RAM Y
counter opcode (0x4F) with two data bytes, and a final busy-wait, in that
order and nothing else. -/
theorem init_golden_sequence :
    Epd.init =
      [Ev.reset, Ev.busy,
       Ev.cmd 0x12, Ev.busy,
       Ev.cmd 0x21, Ev.data 0x40, Ev.data 0x00,
       Ev.cmd 0x3C, Ev.data 0x05,
       Ev.cmd 0x11, Ev.data 0x03,
       Ev.cmd 0x44, Ev.data 0x00, Ev.data 0x31,
       Ev.cmd 0x45, Ev.data 0x00, Ev.data 0x00, Ev.data 0x2B, Ev.data 0x01,
       Ev.cmd 0x4E, Ev.data 0x00,
       Ev.cmd 0x4F, Ev.data 0x00, Ev.data 0x00,
       Ev.busy] := rfl

/-- C3: every refresh trigger emits the update-control-2 opcode (0x22) with
exactly one mode byte (0xF7 full, 0xC7 fast, 0xFF partial-variant, 0xCF
four-gray), then the master-activation opcode (0x20), then a busy-wait; the
partial-variant trigger differs from the full one. -/
theorem refresh_trigger_sequences :
    Epd.turn_on_display = [Ev.cmd 0x22, Ev.data 0xF7, Ev.cmd 0x20, Ev.busy]
    ∧ Epd.turn_on_display_fast =
        [Ev.cmd 0x22, Ev.data 0xC7, Ev.cmd 0x20, Ev.busy]
    ∧ Epd.turn_on_display_part =
        [Ev.cmd 0x22, Ev.data 0xFF, Ev.cmd 0x20, Ev.busy]
    ∧ Epd.turn_on_display_4gray =
        [Ev.cmd 0x22, Ev.data 0xCF, Ev.cmd 0x20, Ev.busy]
    ∧ Epd.turn_on_display_part ≠ Epd.turn_on_display :=
  ⟨rfl, rfl, rfl, rfl, by decide⟩

/-- C7: `display(buffer)` writes the caller's bytes unmodified to both RAM
planes (0x24 and 0x26) and then triggers the full refresh; the partial
display update restates the border-waveform, update-control-1, window and
counter commands, writes the bytes to the primary plane (0x24) only — the
opcode 0x26 never occurs — and triggers the partial-refresh variant. -/
theorem display_plane_writes (image : List Nat) :
    Epd.display image =
      [Ev.cmd 0x24, Ev.dataBulk image, Ev.cmd 0x26, Ev.dataBulk image,
       Ev.cmd 0x22, Ev.data 0xF7, Ev.cmd 0x20, Ev.busy]
    ∧ Epd.display_part image =
      [Ev.cmd 0x3C, Ev.data 0x80,
       Ev.cmd 0x21, Ev.data 0x00, Ev.data 0x00,
       Ev.cmd 0x3C, Ev.data 0x80,
       Ev.cmd 0x44, Ev.data 0x00, Ev.data 0x31,
       Ev.cmd 0x45, Ev.data 0x00, Ev.data 0x00, Ev.data 0x2B, Ev.data 0x01,
       Ev.cmd 0x4E, Ev.data 0x00,
       Ev.cmd 0x4F, Ev.data 0x00, Ev.data 0x00,
       Ev.cmd 0x24, Ev.dataBulk image,
       Ev.cmd 0x22, Ev.data 0xFF, Ev.cmd 0x20, Ev.busy]
    ∧ Ev.cmd 0x26 ∉ Epd.display_part image := by
  refine ⟨rfl, rfl, ?_⟩
  simp [Epd.display_part, Epd.send_command, Epd.send_data, Epd.send_data_bulk,
    Epd.turn_on_display_part, Epd.read_busy]

/-- C6 counterexample: a FrameBuffer created with width 8 and height 8 holds
64 pixels, hence 8 bytes; after `fill(white)` its byte sequence is eight
0xFF bytes, not the single byte `[0xFF]` the claim states. -/
theorem fill_white_8x8_counterexample :
    ((FrameBuffer.new 8 8).fill 1).buffer ≠ [0xFF] := by decide

/-- C6 amended: a FrameBuffer created with width 8 and height 1 has, after
`fill(white)`, the byte sequence `[0xFF]`, and after a subsequent
`pixel(0, 0, black)`, the byte sequence `[0x7F]`. -/
theorem fill_pixel_8x1_scenario :
    ((FrameBuffer.new 8 1).fill 1).buffer = [0xFF]
    ∧ (((FrameBuffer.new 8 1).fill 1).pixel 0 0 0).map FrameBuffer.buffer
        = some [0x7F] := by decide

/-- C1 counterexample: the claim quantifies over every FrameBuffer, but for
the FrameBuffer created with width 3 and height 3 (one allocated byte, since
3*3/8 = 1) the in-range call `pixel(2, 2, c)` computes byte index
(2 + 2*3)/8 = 1, indexes the buffer out of bounds, and panics — it neither
performs the single-bit update nor leaves the buffer unchanged. -/
theorem pixel_in_range_panic_counterexample :
    2 < (FrameBuffer.new 3 3).width ∧ 2 < (FrameBuffer.new 3 3).height
    ∧ (FrameBuffer.new 3 3).pixel 2 2 0 = none := by decide

/-- C10: under the precondition that `width*height` is divisible by 8, the
byte index `(x + y*width)/8` computed by `pixel` is strictly below the
allocated length `width*height/8` for every in-range coordinate, so the
indexing in `pixel` is in bounds; without the divisibility precondition
there are dimensions and in-range coordinates for which the computed index
reaches the allocated length (width 3, height 3, x 2, y 2). -/
theorem pixel_index_in_bounds :
    (∀ w h x y : Nat, 8 ∣ w * h → x < w → y < h →
      FrameBuffer.pixelIndex w x y < (FrameBuffer.new w h).buffer.length)
    ∧ ∃ w h x y : Nat, x < w ∧ y < h ∧
        ¬ FrameBuffer.pixelIndex w x y < (FrameBuffer.new w h).buffer.length := by
  constructor
  · intro w h x y h8 hx hy
    exact FrameBuffer.pixelIndex_lt_length h8 hx hy
  · exact ⟨3, 3, 2, 2, by decide, by decide, by decide⟩

/-- C10 witness: the in-bounds part of the index-bound theorem instantiated
at width 8, height 8, x 1, y 1. -/
theorem pixel_index_in_bounds_witness :
    FrameBuffer.pixelIndex 8 1 1 < (FrameBuffer.new 8 8).buffer.length :=
  pixel_index_in_bounds.1 8 8 1 1 (by decide) (by decide) (by decide)
namespace FrameBuffer

/-- The mask 0x80 >> (x % 8) is the power of two at bit position 7 - x % 8. -/
theorem pixelMask_eq (x : Nat) : pixelMask x = 2 ^ (7 - x % 8) := by
  have h : x % 8 < 8 := Nat.mod_lt _ (by decide)
  unfold pixelMask
  rw [Nat.shiftRight_eq_div_pow]
  have h128 : (0x80 : Nat) = 2 ^ 7 := by norm_num
  rw [h128, Nat.pow_div (by omega) (by decide)]

/-- A byte below 256 has no bit set at position 8 or above. -/
theorem testBit_eq_false_of_byte {b k : Nat} (hb : b < 256) (hk : 8 ≤ k) :
    b.testBit k = false :=
  Nat.testBit_lt_two_pow
    (lt_of_lt_of_le (by norm_num at hb ⊢; exact hb)
      (Nat.pow_le_pow_right (by decide) hk))

end FrameBuffer

/-- C1 amended: for every FrameBuffer whose byte list has the allocated
length width*height/8, with width*height divisible by 8 and every byte below
256 (all of which hold for every buffer produced by `new`), an in-range
`pixel(x, y, color)` call succeeds and clears (color = 0) or sets
(color ≠ 0) exactly the bit 0x80 >> (x % 8) — bit position 7 - x % 8 — of
the byte at index (x + y*width)/8, changing no other bit of that byte and no
other byte; every call with x ≥ width or y ≥ height returns the buffer
entirely unchanged and signals no error. -/
theorem pixel_single_bit (fb : FrameBuffer) (x y color : Nat)
    (hlen : fb.buffer.length = fb.width * fb.height / 8)
    (h8 : 8 ∣ fb.width * fb.height)
    (hbytes : ∀ b ∈ fb.buffer, b < 256) :
    (x < fb.width → y < fb.height →
      ∃ fb', fb.pixel x y color = some fb'
        ∧ fb'.width = fb.width ∧ fb'.height = fb.height
        ∧ fb'.buffer.length = fb.buffer.length
        ∧ (∀ j, j ≠ FrameBuffer.pixelIndex fb.width x y →
            fb'.buffer.getD j 0 = fb.buffer.getD j 0)
        ∧ (∀ k, k ≠ 7 - x % 8 →
            (fb'.buffer.getD (FrameBuffer.pixelIndex fb.width x y) 0).testBit k
              = (fb.buffer.getD (FrameBuffer.pixelIndex fb.width x y) 0).testBit k)
        ∧ (fb'.buffer.getD (FrameBuffer.pixelIndex fb.width x y) 0).testBit
            (7 - x % 8) = decide (color ≠ 0))
    ∧ ((fb.width ≤ x ∨ fb.height ≤ y) → fb.pixel x y color = some fb) := by
  constructor
  · intro hx hy
    have hidx : FrameBuffer.pixelIndex fb.width x y < fb.buffer.length := by
      rw [hlen]
      have h := FrameBuffer.pixelIndex_lt_length h8 hx hy
      simpa [FrameBuffer.new] using h
    have hguard : ¬ (x ≥ fb.width ∨ y ≥ fb.height) := by omega
    set i := 7 - x % 8 with hi
    set idx := FrameBuffer.pixelIndex fb.width x y with hidxdef
    set old := fb.buffer.getD idx 0 with holddef
    set nb : Nat :=
      if color = 0 then old &&& (0xFF ^^^ FrameBuffer.pixelMask x)
      else old ||| FrameBuffer.pixelMask x with hnb
    have hpix : fb.pixel x y color =
        some { fb with buffer := fb.buffer.set idx nb } := by
      unfold FrameBuffer.pixel
      rw [if_neg hguard]
      simp only []
      rw [if_pos hidx]
    have hold256 : old < 256 := by
      rw [holddef]
      exact hbytes _ (getD_mem_of_lt hidx)
    have hbyte : (fb.buffer.set idx nb).getD idx 0 = nb := by
      simp [List.getD_eq_getElem?_getD, List.getElem?_set_self hidx]
    have hi8 : i < 8 := by omega
    refine ⟨{ fb with buffer := fb.buffer.set idx nb }, hpix, rfl, rfl, by simp, ?_, ?_, ?_⟩
    · intro j hj
      simp [List.getD_eq_getElem?_getD, List.getElem?_set_ne (Ne.symm hj)]
    · intro k hk
      rw [hbyte, hnb]
      by_cases hc : color = 0
      · rw [if_pos hc]
        by_cases hk8 : k < 8
        · rw [FrameBuffer.pixelMask_eq,
            show (0xFF : Nat) = 2 ^ 8 - 1 by norm_num,
            Nat.testBit_and, Nat.testBit_xor, Nat.testBit_two_pow_sub_one,
            Nat.testBit_two_pow_of_ne (fun h => hk h.symm)]
          simp [hk8]
        · have h1 : (old &&& (0xFF ^^^ FrameBuffer.pixelMask x)).testBit k = false :=
            FrameBuffer.testBit_eq_false_of_byte
              (lt_of_le_of_lt Nat.and_le_left hold256) (by omega)
          have h2 : old.testBit k = false :=
            FrameBuffer.testBit_eq_false_of_byte hold256 (by omega)
          rw [h1, h2]
      · rw [if_neg hc]
        simp [Nat.testBit_or, FrameBuffer.pixelMask_eq,
          Nat.testBit_two_pow_of_ne (fun h => hk h.symm)]
    · rw [hbyte, hnb]
      by_cases hc : color = 0
      · rw [if_pos hc]
        rw [FrameBuffer.pixelMask_eq,
          show (0xFF : Nat) = 2 ^ 8 - 1 by norm_num,
          Nat.testBit_and, Nat.testBit_xor, Nat.testBit_two_pow_sub_one,
          Nat.testBit_two_pow_self]
        simp [hc, hi8]
      · rw [if_neg hc]
        simp [hc, Nat.testBit_or, FrameBuffer.pixelMask_eq,
          Nat.testBit_two_pow_self]
  · intro h
    unfold FrameBuffer.pixel
    rw [if_pos h]

/-- C1 amended witness: the single-bit theorem applied to the fresh 8-by-8
buffer at x 1, y 0, color 1; the updated byte keeps bit 6 set. -/
theorem pixel_single_bit_witness :
    ∃ fb', (FrameBuffer.new 8 8).pixel 1 0 1 = some fb'
      ∧ (fb'.buffer.getD 0 0).testBit 6 = true := by
  obtain ⟨fb', h1, -, -, -, -, -, h7⟩ :=
    (pixel_single_bit (FrameBuffer.new 8 8) 1 0 1 (by decide) (by decide)
      (by decide)).1 (by decide) (by decide)
  refine ⟨fb', h1, ?_⟩
  simpa [FrameBuffer.pixelIndex] using h7

namespace FrameBuffer

/-- The Bresenham loop body commutes with the point reflection through
`(u, v)`: running the body with negated step signs from the reflected state
yields the reflected stepped state, with the same error term. -/
theorem lineStep_reflect (dx dy sx sy u v x y err : Int) :
    lineStep dx dy (-sx) (-sy) (u - x) (v - y) err
      = (u - (lineStep dx dy sx sy x y err).1,
         v - (lineStep dx dy sx sy x y err).2.1,
         (lineStep dx dy sx sy x y err).2.2) := by
  simp only [lineStep]
  split_ifs <;> simp [Prod.mk.injEq] <;> omega

/-- The Bresenham trace run backwards with negated step signs from the
reflected start towards the reflected target is the pointwise reflection of
the forward trace, step by step, for any amount of fuel. -/
theorem linePointsAux_reflect (dx dy sx sy u v xt yt : Int) :
    ∀ (n : Nat) (x y err : Int),
      linePointsAux dx dy (-sx) (-sy) (u - xt) (v - yt) n (u - x) (v - y) err
        = (linePointsAux dx dy sx sy xt yt n x y err).map
            (fun p => (u - p.1, v - p.2)) := by
  intro n
  induction n with
  | zero => intro x y err; rfl
  | succ n ih =>
    intro x y err
    rw [linePointsAux, linePointsAux]
    by_cases hstop : x = xt ∧ y = yt
    · rw [if_pos hstop, if_pos (by obtain ⟨h1, h2⟩ := hstop; omega)]
      simp
    · rw [if_neg hstop, if_neg (by
        intro hc
        obtain ⟨h1, h2⟩ := hc
        exact hstop ⟨by omega, by omega⟩)]
      simp only [List.map_cons]
      refine congrArg (List.cons _) ?_
      rw [lineStep_reflect]
      exact ih _ _ _

/-- When the line is vertical (`dx = 0`, strictly negative `dy`) and the
error term starts at `dy`, the x step sign is never consulted: the trace is
independent of it. -/
theorem linePointsAux_sx_irrel (dy sy xt yt s1 s2 : Int) (hdy : dy < 0) :
    ∀ (n : Nat) (x y : Int),
      linePointsAux 0 dy s1 sy xt yt n x y dy
        = linePointsAux 0 dy s2 sy xt yt n x y dy := by
  intro n
  induction n with
  | zero => intro x y; rfl
  | succ n ih =>
    intro x y
    rw [linePointsAux, linePointsAux]
    by_cases hstop : x = xt ∧ y = yt
    · rw [if_pos hstop, if_pos hstop]
    · rw [if_neg hstop, if_neg hstop]
      have hstep : ∀ s : Int, lineStep 0 dy s sy x y dy = (x, y + sy, dy) := by
        intro s
        simp only [lineStep]
        rw [if_neg (by omega), if_pos (by omega)]
        simp
      rw [hstep, hstep]
      exact congrArg (List.cons _) (ih _ _)

/-- When the line is horizontal (`dy = 0`, strictly positive `dx`) and the
error term starts at `dx`, the y step sign is never consulted: the trace is
independent of it. -/
theorem linePointsAux_sy_irrel (dx sx xt yt s1 s2 : Int) (hdx : 0 < dx) :
    ∀ (n : Nat) (x y : Int),
      linePointsAux dx 0 sx s1 xt yt n x y dx
        = linePointsAux dx 0 sx s2 xt yt n x y dx := by
  intro n
  induction n with
  | zero => intro x y; rfl
  | succ n ih =>
    intro x y
    rw [linePointsAux, linePointsAux]
    by_cases hstop : x = xt ∧ y = yt
    · rw [if_pos hstop, if_pos hstop]
    · rw [if_neg hstop, if_neg hstop]
      have hstep : ∀ s : Int, lineStep dx 0 sx s x y dx = (x + sx, y, dx) := by
        intro s
        simp only [lineStep]
        rw [if_pos (by omega), if_neg (by omega)]
        simp
      rw [hstep, hstep]
      exact congrArg (List.cons _) (ih _ _)

end FrameBuffer

/-- C4 counterexample: drawing the segment between (0,0) and (4,2) in the
two endpoint orders plots different pixel sets: (1,1) is plotted by
line(0,0,4,2,c) (which visits (0,0),(1,1),(2,1),(3,2),(4,2)) but not by
line(4,2,0,0,c) (which visits (4,2),(3,1),(2,1),(1,0),(0,0)). -/
theorem line_direction_counterexample :
    ((1, 1) : Int × Int) ∈ FrameBuffer.linePlotted 0 0 4 2
    ∧ ((1, 1) : Int × Int) ∉ FrameBuffer.linePlotted 4 2 0 0
    ∧ (FrameBuffer.linePlotted 0 0 4 2).toFinset
        ≠ (FrameBuffer.linePlotted 4 2 0 0).toFinset := by decide

/-- C4 amended: for every pair of endpoints, line(x1,y1,x0,y0,color) visits
exactly the pointwise reflection of the points visited by
line(x0,y0,x1,y1,color) through the midpoint of the segment (so the two
visited sequences have equal length and share both endpoints), but the two
plotted pixel sets are in general different. -/
theorem line_endpoint_reflection (x0 y0 x1 y1 : Int) :
    FrameBuffer.linePoints x1 y1 x0 y0
      = (FrameBuffer.linePoints x0 y0 x1 y1).map
          (fun p => (x0 + x1 - p.1, y0 + y1 - p.2)) := by
  unfold FrameBuffer.linePoints
  dsimp only
  rw [abs_sub_comm x0 x1, abs_sub_comm y0 y1]
  by_cases hx : x0 = x1
  · by_cases hy : y0 = y1
    · subst hx; subst hy
      rw [sub_self, abs_zero]
      norm_num [FrameBuffer.linePointsAux, Prod.mk.injEq]
    · subst hx
      rw [sub_self, abs_zero]
      have hdy : -|y1 - y0| < 0 := by
        have := abs_pos.mpr (sub_ne_zero.mpr (Ne.symm hy))
        omega
      rw [if_neg (lt_irrefl x0)]
      have hsy : (if y1 < y0 then (1 : Int) else -1)
          = -(if y0 < y1 then (1 : Int) else -1) := by
        by_cases h : y0 < y1
        · rw [if_neg (by omega), if_pos h]
        · rw [if_pos (by omega), if_neg h]; norm_num
      rw [hsy, zero_add]
      rw [FrameBuffer.linePointsAux_sx_irrel (-|y1 - y0|)
        (-(if y0 < y1 then (1 : Int) else -1)) x0 y0 (-1) 1 hdy]
      have main := FrameBuffer.linePointsAux_reflect 0 (-|y1 - y0|) (-1)
        (if y0 < y1 then (1 : Int) else -1) (x0 + x0) (y0 + y1) x0 y1
        ((0 - -|y1 - y0|).toNat + 1) x0 y0 (0 + -|y1 - y0|)
      simp only [neg_neg, zero_add,
        show x0 + x0 - x0 = x0 from by ring,
        show y0 + y1 - y1 = y0 from by ring,
        show y0 + y1 - y0 = y1 from by ring] at main
      exact main
  · by_cases hy : y0 = y1
    · subst hy
      rw [sub_self, abs_zero, neg_zero]
      have hdx : 0 < |x1 - x0| := abs_pos.mpr (sub_ne_zero.mpr (Ne.symm hx))
      rw [if_neg (lt_irrefl y0)]
      have hsx : (if x1 < x0 then (1 : Int) else -1)
          = -(if x0 < x1 then (1 : Int) else -1) := by
        by_cases h : x0 < x1
        · rw [if_neg (by omega), if_pos h]
        · rw [if_pos (by omega), if_neg h]; norm_num
      rw [hsx, add_zero]
      rw [FrameBuffer.linePointsAux_sy_irrel (|x1 - x0|)
        (-(if x0 < x1 then (1 : Int) else -1)) x0 y0 (-1) 1 hdx]
      have main := FrameBuffer.linePointsAux_reflect (|x1 - x0|) 0
        (if x0 < x1 then (1 : Int) else -1) (-1) (x0 + x1) (y0 + y0) x1 y0
        ((|x1 - x0| - 0).toNat + 1) x0 y0 (|x1 - x0| + 0)
      simp only [neg_neg, add_zero,
        show x0 + x1 - x1 = x0 from by ring,
        show x0 + x1 - x0 = x1 from by ring,
        show y0 + y0 - y0 = y0 from by ring] at main
      exact main
    · have hsx : (if x1 < x0 then (1 : Int) else -1)
          = -(if x0 < x1 then (1 : Int) else -1) := by
        by_cases h : x0 < x1
        · rw [if_neg (by omega), if_pos h]
        · rw [if_pos (by omega), if_neg h]; norm_num
      have hsy : (if y1 < y0 then (1 : Int) else -1)
          = -(if y0 < y1 then (1 : Int) else -1) := by
        by_cases h : y0 < y1
        · rw [if_neg (by omega), if_pos h]
        · rw [if_pos (by omega), if_neg h]; norm_num
      rw [hsx, hsy]
      have main := FrameBuffer.linePointsAux_reflect (|x1 - x0|) (-|y1 - y0|)
        (if x0 < x1 then (1 : Int) else -1) (if y0 < y1 then (1 : Int) else -1)
        (x0 + x1) (y0 + y1) x1 y1
        ((|x1 - x0| - -|y1 - y0|).toNat + 1) x0 y0 (|x1 - x0| + -|y1 - y0|)
      simp only [show x0 + x1 - x1 = x0 from by ring,
        show x0 + x1 - x0 = x1 from by ring,
        show y0 + y1 - y1 = y0 from by ring,
        show y0 + y1 - y0 = y1 from by ring] at main
      exact main

namespace FrameBuffer

/-- Membership in the plotted points of one glyph: position `(cx+k, y+row)`
with `k < 8`, `row` a glyph row, exactly when bit `k` of the row byte is
set. -/
theorem mem_glyphPoints {g : List Nat} {cx y : Nat} {p : Nat × Nat} :
    p ∈ glyphPoints g cx y ↔
      ∃ row, row < g.length ∧ ∃ k, k < 8 ∧ p = (cx + k, y + row)
        ∧ (g.getD row 0).testBit k = true := by
  rw [glyphPoints, List.mem_flatMap]
  constructor
  · rintro ⟨rb, hrb, hp⟩
    rw [List.mem_filterMap] at hp
    obtain ⟨col, hcol, hsome⟩ := hp
    rw [List.mem_range] at hcol
    by_cases hbit : rb.2 &&& (1 <<< col) ≠ 0
    · rw [if_pos hbit] at hsome
      have hp' := Option.some.inj hsome
      rw [List.mem_enum_iff_getElem?] at hrb
      have hlt : rb.1 < g.length := by
        by_contra hge
        rw [List.getElem?_eq_none (by omega)] at hrb
        exact Option.noConfusion hrb
      have hgetD : g.getD rb.1 0 = rb.2 := by
        rw [List.getD_eq_getElem?_getD, hrb]
        rfl
      refine ⟨rb.1, hlt, col, hcol, hp'.symm, ?_⟩
      rw [hgetD]
      rw [Nat.one_shiftLeft] at hbit
      exact (and_two_pow_ne_zero_iff _ _).mp hbit
    · rw [if_neg hbit] at hsome
      exact absurd hsome (by simp)
  · rintro ⟨row, hrow, k, hk, rfl, hbit⟩
    refine ⟨(row, g.getD row 0), ?_, ?_⟩
    · rw [List.mem_enum_iff_getElem?]
      exact getElem?_eq_some_getD hrow
    · rw [List.mem_filterMap]
      refine ⟨k, List.mem_range.mpr hk, ?_⟩
      have hcond : (g.getD row 0) &&& (1 <<< k) ≠ 0 := by
        rw [Nat.one_shiftLeft]
        exact (and_two_pow_ne_zero_iff _ _).mpr hbit
      rw [if_pos hcond]

/-- The text points of a character list starting at cursor offset `8*n`
agree with flattening the characters enumerated from `n`, each in-range
character contributing its glyph points at horizontal origin `x + 8*i`. -/
theorem textPoints_eq_flatMap_enumFrom (font : List (List Nat)) :
    ∀ (s : List Nat) (n x y : Nat),
      textPoints font s (x + 8 * n) y
        = (s.enumFrom n).flatMap (fun ic =>
            if 32 ≤ ic.2 ∧ ic.2 < 128 then
              glyphPoints (font.getD (ic.2 - 32) []) (x + 8 * ic.1) y
            else []) := by
  intro s
  induction s with
  | nil => intro n x y; rfl
  | cons ch rest ih =>
    intro n x y
    rw [List.enumFrom_cons, List.flatMap_cons, textPoints]
    have h8 : x + 8 * n + 8 = x + 8 * (n + 1) := by ring
    rw [h8, ih (n + 1) x y]

end FrameBuffer

/-- C5 counterexample: with the spec-modelled glyph table (the sample glyph
for code point 76 has first row byte 0x40, bit 6 set), the claim predicts a
pixel at horizontal offset 1 (since bit 7-1 = 6 is set) and none at offset 6
(since bit 7-6 = 1 is clear); the code plots the opposite: nothing at offset
1 and a pixel at offset 6. -/
theorem text_glyph_msb_counterexample :
    (32 ≤ 76 ∧ 76 < 128)
    ∧ Nat.testBit ((FONT_model.getD (76 - 32) []).getD 0 0) (7 - 1) = true
    ∧ ((1, 0) : Nat × Nat) ∉ FrameBuffer.textPoints FONT_model [76] 0 0
    ∧ Nat.testBit ((FONT_model.getD (76 - 32) []).getD 0 0) (7 - 6) = false
    ∧ ((6, 0) : Nat × Nat) ∈ FrameBuffer.textPoints FONT_model [76] 0 0 := by
  decide

/-- C5 amended: for every glyph table and every in-range character, the
glyph's 8 row bytes are interpreted with bit 0 as the leftmost column: text
plots a pixel at horizontal offset k within the glyph cell (0 ≤ k < 8)
exactly when bit k of the corresponding glyph row byte is set. -/
theorem text_glyph_bit_mapping (font : List (List Nat)) (ch x y : Nat)
    (p : Nat × Nat) (h1 : 32 ≤ ch) (h2 : ch < 128) :
    p ∈ FrameBuffer.textPoints font [ch] x y ↔
      ∃ row, row < (font.getD (ch - 32) []).length ∧ ∃ k, k < 8 ∧
        p = (x + k, y + row)
        ∧ ((font.getD (ch - 32) []).getD row 0).testBit k = true := by
  have hcase : (32 ≤ ch ∧ ch < 128) := ⟨h1, h2⟩
  rw [FrameBuffer.textPoints, if_pos hcase, FrameBuffer.textPoints, List.append_nil]
  exact FrameBuffer.mem_glyphPoints

/-- C5 amended witness: a pixel at offset 6 of row 0 of the sample glyph for
code point 76 drawn at (10, 20), via bit 6 of the row byte 0x40. -/
theorem text_glyph_bit_mapping_witness :
    ((16, 20) : Nat × Nat) ∈ FrameBuffer.textPoints FONT_model [76] 10 20 :=
  (text_glyph_bit_mapping FONT_model 76 10 20 (16, 20) (by decide)
    (by decide)).mpr ⟨0, by decide, 6, by decide, rfl, by decide⟩

/-- C8: text processes characters left to right with a fixed cursor advance
of 8 pixels per character: the character at index i contributes, when its
code point lies in [32, 128), the points of the glyph at table index
code point - 32 drawn at horizontal origin x + 8*i, and contributes no
points otherwise (while still advancing the cursor). -/
theorem text_fixed_advance (font : List (List Nat)) (s : List Nat)
    (x y : Nat) :
    FrameBuffer.textPoints font s x y
      = s.enum.flatMap (fun ic =>
          if 32 ≤ ic.2 ∧ ic.2 < 128 then
            FrameBuffer.glyphPoints (font.getD (ic.2 - 32) []) (x + 8 * ic.1) y
          else []) := by
  have h := FrameBuffer.textPoints_eq_flatMap_enumFrom font s 0 x y
  rw [Nat.mul_zero, Nat.add_zero] at h
  rw [List.enum_eq_enumFrom]
  exact h

namespace FrameBuffer

/-- Under the dimension invariant, `pixel` always succeeds and preserves the
dimensions and the allocated length. -/
theorem pixel_pres {w h : Nat} (h8 : 8 ∣ w * h) {fb : FrameBuffer}
    (hw : fb.width = w) (hh : fb.height = h)
    (hlen : fb.buffer.length = w * h / 8) (x y c : Nat) :
    ∃ fb', fb.pixel x y c = some fb' ∧ fb'.width = w ∧ fb'.height = h
      ∧ fb'.buffer.length = w * h / 8 := by
  unfold pixel
  dsimp only
  by_cases hg : x ≥ fb.width ∨ y ≥ fb.height
  · rw [if_pos hg]
    exact ⟨fb, rfl, hw, hh, hlen⟩
  · rw [if_neg hg]
    push_neg at hg
    have hidx : pixelIndex fb.width x y < fb.buffer.length := by
      have hb := pixelIndex_lt_length (w := w) (h := h) (x := x) (y := y) h8 (by omega) (by omega)
      simp only [new, List.length_replicate] at hb
      rw [hlen, hw]
      exact hb
    rw [if_pos hidx]
    exact ⟨_, rfl, hw, hh, by simp [hlen]⟩

/-- A monadic fold whose step always succeeds preserving the dimension
invariant itself succeeds preserving the invariant. -/
theorem foldlM_pres {α : Type} {w h : Nat}
    (f : FrameBuffer → α → Option FrameBuffer)
    (hf : ∀ fb a, fb.width = w → fb.height = h →
      fb.buffer.length = w * h / 8 →
      ∃ fb', f fb a = some fb' ∧ fb'.width = w ∧ fb'.height = h
        ∧ fb'.buffer.length = w * h / 8) :
    ∀ (l : List α) (fb : FrameBuffer), fb.width = w → fb.height = h →
      fb.buffer.length = w * h / 8 →
      ∃ fb', List.foldlM f fb l = some fb' ∧ fb'.width = w ∧ fb'.height = h
        ∧ fb'.buffer.length = w * h / 8 := by
  intro l
  induction l with
  | nil => intro fb hw hh hlen; exact ⟨fb, rfl, hw, hh, hlen⟩
  | cons a rest ih =>
    intro fb hw hh hlen
    obtain ⟨fb1, h1, hw1, hh1, hlen1⟩ := hf fb a hw hh hlen
    obtain ⟨fb2, h2, hw2, hh2, hlen2⟩ := ih fb1 hw1 hh1 hlen1
    refine ⟨fb2, ?_, hw2, hh2, hlen2⟩
    rw [List.foldlM_cons, h1]
    exact h2

/-- `hline` preserves the dimension invariant. -/
theorem hline_pres {w h : Nat} (h8 : 8 ∣ w * h) {fb : FrameBuffer}
    (hw : fb.width = w) (hh : fb.height = h)
    (hlen : fb.buffer.length = w * h / 8) (x y l c : Nat) :
    ∃ fb', fb.hline x y l c = some fb' ∧ fb'.width = w ∧ fb'.height = h
      ∧ fb'.buffer.length = w * h / 8 :=
  foldlM_pres _ (fun _ i bw bh bl => pixel_pres h8 bw bh bl (x + i) y c)
    (List.range l) fb hw hh hlen

/-- `vline` preserves the dimension invariant. -/
theorem vline_pres {w h : Nat} (h8 : 8 ∣ w * h) {fb : FrameBuffer}
    (hw : fb.width = w) (hh : fb.height = h)
    (hlen : fb.buffer.length = w * h / 8) (x y l c : Nat) :
    ∃ fb', fb.vline x y l c = some fb' ∧ fb'.width = w ∧ fb'.height = h
      ∧ fb'.buffer.length = w * h / 8 :=
  foldlM_pres _ (fun _ i bw bh bl => pixel_pres h8 bw bh bl x (y + i) c)
    (List.range l) fb hw hh hlen

/-- `line` preserves the dimension invariant. -/
theorem line_pres {w h : Nat} (h8 : 8 ∣ w * h) {fb : FrameBuffer}
    (hw : fb.width = w) (hh : fb.height = h)
    (hlen : fb.buffer.length = w * h / 8) (x0 y0 x1 y1 : Int) (c : Nat) :
    ∃ fb', fb.line x0 y0 x1 y1 c = some fb' ∧ fb'.width = w ∧ fb'.height = h
      ∧ fb'.buffer.length = w * h / 8 := by
  refine foldlM_pres _ ?_ (linePoints x0 y0 x1 y1) fb hw hh hlen
  intro b p bw bh bl
  by_cases hp : 0 ≤ p.1 ∧ 0 ≤ p.2
  · rw [if_pos hp]
    exact pixel_pres h8 bw bh bl p.1.toNat p.2.toNat c
  · rw [if_neg hp]
    exact ⟨b, rfl, bw, bh, bl⟩

/-- `rect` preserves the dimension invariant. -/
theorem rect_pres {w h : Nat} (h8 : 8 ∣ w * h) {fb : FrameBuffer}
    (hw : fb.width = w) (hh : fb.height = h)
    (hlen : fb.buffer.length = w * h / 8) (x y aw ah c : Nat) :
    ∃ fb', fb.rect x y aw ah c = some fb' ∧ fb'.width = w ∧ fb'.height = h
      ∧ fb'.buffer.length = w * h / 8 := by
  obtain ⟨f1, h1, hw1, hh1, hl1⟩ := hline_pres h8 hw hh hlen x y aw c
  obtain ⟨f2, h2, hw2, hh2, hl2⟩ :=
    hline_pres h8 hw1 hh1 hl1 x (u32sub1 (y + ah)) aw c
  obtain ⟨f3, h3, hw3, hh3, hl3⟩ := vline_pres h8 hw2 hh2 hl2 x y ah c
  obtain ⟨f4, h4, hw4, hh4, hl4⟩ :=
    vline_pres h8 hw3 hh3 hl3 (u32sub1 (x + aw)) y ah c
  refine ⟨f4, ?_, hw4, hh4, hl4⟩
  simp [rect, h1, h2, h3, h4]

/-- `fill_rect` preserves the dimension invariant. -/
theorem fill_rect_pres {w h : Nat} (h8 : 8 ∣ w * h) {fb : FrameBuffer}
    (hw : fb.width = w) (hh : fb.height = h)
    (hlen : fb.buffer.length = w * h / 8) (x y aw ah c : Nat) :
    ∃ fb', fb.fill_rect x y aw ah c = some fb' ∧ fb'.width = w
      ∧ fb'.height = h ∧ fb'.buffer.length = w * h / 8 := by
  refine foldlM_pres _ ?_ (List.range ah) fb hw hh hlen
  intro b dy bw bh bl
  exact foldlM_pres _ (fun b2 dx cw chh cl => pixel_pres h8 cw chh cl (x + dx) (y + dy) c)
    (List.range aw) b bw bh bl

/-- `text` preserves the dimension invariant. -/
theorem text_pres {w h : Nat} (h8 : 8 ∣ w * h) {fb : FrameBuffer}
    (hw : fb.width = w) (hh : fb.height = h)
    (hlen : fb.buffer.length = w * h / 8) (font : List (List Nat))
    (s : List Nat) (x y c : Nat) :
    ∃ fb', fb.text font s x y c = some fb' ∧ fb'.width = w ∧ fb'.height = h
      ∧ fb'.buffer.length = w * h / 8 :=
  foldlM_pres _ (fun _ p bw bh bl => pixel_pres h8 bw bh bl p.1 p.2 c)
    (textPoints font s x y) fb hw hh hlen

end FrameBuffer

/-- Every single drawing operation preserves the dimension invariant. -/
theorem FBOp_apply_pres {w h : Nat} (h8 : 8 ∣ w * h) {fb : FrameBuffer}
    (hw : fb.width = w) (hh : fb.height = h)
    (hlen : fb.buffer.length = w * h / 8) (op : FBOp) :
    ∃ fb', FBOp.apply fb op = some fb' ∧ fb'.width = w ∧ fb'.height = h
      ∧ fb'.buffer.length = w * h / 8 := by
  cases op with
  | fill c =>
    exact ⟨fb.fill c, rfl, by simp [FrameBuffer.fill, hw],
      by simp [FrameBuffer.fill, hh], by simp [FrameBuffer.fill, hlen]⟩
  | pixel x y c => exact FrameBuffer.pixel_pres h8 hw hh hlen x y c
  | hline x y l c => exact FrameBuffer.hline_pres h8 hw hh hlen x y l c
  | vline x y l c => exact FrameBuffer.vline_pres h8 hw hh hlen x y l c
  | line x0 y0 x1 y1 c => exact FrameBuffer.line_pres h8 hw hh hlen x0 y0 x1 y1 c
  | rect x y aw ah c => exact FrameBuffer.rect_pres h8 hw hh hlen x y aw ah c
  | fill_rect x y aw ah c =>
    exact FrameBuffer.fill_rect_pres h8 hw hh hlen x y aw ah c
  | text font s x y c => exact FrameBuffer.text_pres h8 hw hh hlen font s x y c

/-- C9: a FrameBuffer constructed by new(width, height) with width*height
divisible by 8 has byte length width*height/8, every sequence of drawing
operations (fill, pixel, hline, vline, line, rect, fill_rect, text) succeeds
and preserves that length, and the buffer accessor returns exactly that byte
sequence. -/
theorem buffer_length_invariant (w h : Nat) (ops : List FBOp)
    (h8 : 8 ∣ w * h) :
    (FrameBuffer.new w h).buffer.length = w * h / 8
    ∧ ∃ fb', List.foldlM FBOp.apply (FrameBuffer.new w h) ops = some fb'
        ∧ fb'.bufferRef = fb'.buffer ∧ fb'.bufferRef.length = w * h / 8 := by
  refine ⟨by simp [FrameBuffer.new], ?_⟩
  obtain ⟨fb', h1, -, -, hlen⟩ :=
    FrameBuffer.foldlM_pres FBOp.apply
      (fun _ op bw bh bl => FBOp_apply_pres h8 bw bh bl op) ops
      (FrameBuffer.new w h) rfl rfl (by simp [FrameBuffer.new])
  exact ⟨fb', h1, rfl, hlen⟩

/-- C9 witness: the invariant at width 8, height 8 with a sample operation
sequence; the resulting byte length is 8. -/
theorem buffer_length_invariant_witness :
    ∃ fb', List.foldlM FBOp.apply (FrameBuffer.new 8 8)
        [FBOp.fill 0, FBOp.pixel 1 1 1, FBOp.hline 0 0 3 1,
         FBOp.line 0 0 4 2 0] = some fb'
      ∧ fb'.bufferRef.length = 8 := by
  obtain ⟨-, fb', h1, -, hlen⟩ :=
    buffer_length_invariant 8 8
      [FBOp.fill 0, FBOp.pixel 1 1 1, FBOp.hline 0 0 3 1, FBOp.line 0 0 4 2 0]
      (by decide)
  exact ⟨fb', h1, by simpa using hlen⟩

end Waveshare
